import Mathlib

/-!
Verification development for the shinkuro prompt server.

The development shallowly embeds the prompt validation/rendering engine and
the protocol dispatcher of the Rust sources:

  * `formatters.rs` : identifier validation, the two regex-based formatters
    (`BraceFormatter`, `DollarFormatter`) with their `extract_arguments` and
    `format` operations;
  * `mcp.rs` : `MarkdownPrompt::new`, `MarkdownPrompt::render`,
    `MarkdownPrompt::to_prompt_info`, `handle_request` and the `run_server`
    request loop;
  * `model.rs` : the `Argument` and `PromptData` records.

Modelling conventions: Rust `String` is Lean `String`; the regexes
`\x7b([a-zA-Z_][a-zA-Z0-9_]*)\x7d` and `\$([a-zA-Z_][a-zA-Z0-9_]*)` are
embedded as an explicit leftmost, non-overlapping scanner over `List Char`
(both patterns are backtracking-free, so leftmost-first regex matching
coincides with this scanner); `HashSet<String>` becomes `Finset String`
(hash iteration order is unspecified, so only the underlying set is
observable); `HashMap<String, String>` becomes an association list whose
lookup takes the first matching key, with overwriting insert; fallible Rust
functions returning `Result` become `Except`.
-/

namespace Shinkuro

/-! ### Identifier characters

The character classes of the regexes `[a-zA-Z_]` and `[a-zA-Z0-9_]`;
`Char.isAlpha` and `Char.isDigit` are exactly the ASCII ranges used there. -/

def isIdentStart (c : Char) : Bool := c.isAlpha || c == '_'

def isIdentChar (c : Char) : Bool := isIdentStart c || c.isDigit

/-- Embeds `validate_variable_name` (formatters.rs:15-18): the string must
match `^[a-zA-Z_][a-zA-Z0-9_]*$`. -/
def validate_variable_name (s : String) : Bool :=
  match s.data with
  | [] => false
  | c :: cs => isIdentStart c && cs.all isIdentChar

/-- Maximal-munch identifier at the head of the character list: one
`[a-zA-Z_]` character followed by the longest run of `[a-zA-Z0-9_]`
characters, returning the identifier and the remaining characters. -/
def takeIdent (l : List Char) : Option (List Char × List Char) :=
  match l with
  | [] => none
  | c :: rest =>
    if isIdentStart c then some (c :: rest.takeWhile isIdentChar, rest.dropWhile isIdentChar)
    else none

/-- The two formatter variants selected by `get_formatter` (formatters.rs:103-108). -/
inductive Fmt where
  | brace
  | dollar
deriving DecidableEq

/-- The character that can begin a variable reference of each variant. -/
def trigger : Fmt → Char
  | .brace => '{'
  | .dollar => '$'

/-- Match of the regex `\x7b([a-zA-Z_][a-zA-Z0-9_]*)\x7d` at the head of the
list: returns the captured name and the characters after the match. -/
def braceMatch (l : List Char) : Option (List Char × List Char) :=
  match l with
  | [] => none
  | c :: rest =>
    if c = '{' then
      match takeIdent rest with
      | some (name, d :: rest') => if d = '}' then some (name, rest') else none
      | _ => none
    else none

/-- Match of the regex `\$([a-zA-Z_][a-zA-Z0-9_]*)` at the head of the list:
returns the captured name and the characters after the match. -/
def dollarMatch (l : List Char) : Option (List Char × List Char) :=
  match l with
  | [] => none
  | c :: rest => if c = '$' then takeIdent rest else none

/-- Attempt of the variant regex at the head of the character list. -/
def fmtMatch : Fmt → List Char → Option (List Char × List Char)
  | .brace, l => braceMatch l
  | .dollar, l => dollarMatch l

/-- One segment of the content as seen by the regex engine: either a
character outside every match, or one matched variable reference. -/
inductive Seg where
  | lit (c : Char)
  | ref (name : List Char)
deriving DecidableEq

/-- The full text of a matched reference (`&caps[0]` in formatters.rs). -/
def rawRef : Fmt → List Char → List Char
  | .brace, n => '{' :: (n ++ ['}'])
  | .dollar, n => '$' :: n

/-- Leftmost non-overlapping scan of the content, fuelled so that the
recursion is structural (the fuel is always at least the list length). -/
def scanFuel (f : Fmt) : Nat → List Char → List Seg
  | _, [] => []
  | 0, _ :: _ => []
  | fuel + 1, c :: rest =>
    match fmtMatch f (c :: rest) with
    | some (name, rest') => Seg.ref name :: scanFuel f fuel rest'
    | none => Seg.lit c :: scanFuel f fuel rest

/-- Leftmost non-overlapping decomposition of the content into literal
characters and matched references, as produced by `captures_iter` /
`replace_all` of the regex crate. -/
def scanF (f : Fmt) (l : List Char) : List Seg := scanFuel f l.length l

/-- The names of the matched references, in match order. -/
def refNames (segs : List Seg) : List (List Char) :=
  segs.filterMap fun s => match s with | .ref n => some n | .lit _ => none

/-- Embeds `FormatterError` (formatters.rs:6-12). -/
inductive FormatterError where
  | invalidVariableName (name : String)
  | invalidSyntax (msg : String)
deriving DecidableEq

/-- The `Display` text of a `FormatterError` (its `thiserror` attributes). -/
def formatterErrorMessage : FormatterError → String
  | .invalidVariableName n => "Invalid variable name: " ++ n
  | .invalidSyntax m => "Invalid template syntax: " ++ m

/-- The validation loop shared by both `extract_arguments` bodies
(formatters.rs:43-49 and 80-86): walk the captured names in match order,
fail on the first name rejected by `validate_variable_name`, and otherwise
accumulate the names into a set. -/
def collectArgs : List String → Except FormatterError (Finset String)
  | [] => .ok ∅
  | n :: rest =>
    if validate_variable_name n then (collectArgs rest).map (insert n)
    else .error (.invalidVariableName n)

/-- Embeds `extract_arguments` of both formatters (formatters.rs:39-52 and
75-89): collect the names captured by the variant regex. -/
def Fmt.extract_arguments (f : Fmt) (content : String) :
    Except FormatterError (Finset String) :=
  collectArgs ((refNames (scanF f content.data)).map String.mk)

/-- The set of variable names matched in the content; `extract_arguments`
always succeeds with this set (`extract_arguments_eq` below). -/
def extractSet (f : Fmt) (content : String) : Finset String :=
  ((refNames (scanF f content.data)).map String.mk).toFinset

/-- One regex pass of `replace_all` with the replacement closure of `format`
(formatters.rs:54-62 and 91-99), fuelled so that the recursion is
structural: a matched reference is replaced by the bound value when the
variables map has its name and by the raw match text otherwise; every
character outside a match is copied unchanged. -/
def formatFuel (f : Fmt) (vars : String → Option String) : Nat → List Char → List Char
  | _, [] => []
  | 0, _ :: _ => []
  | fuel + 1, c :: rest =>
    match fmtMatch f (c :: rest) with
    | some (name, rest') =>
      (match vars (String.mk name) with
       | some v => v.data
       | none => rawRef f name) ++ formatFuel f vars fuel rest'
    | none => c :: formatFuel f vars fuel rest

/-- Embeds `format` of both formatters (formatters.rs:54-62 and 91-99). The
variables map of the Rust code is `HashMap::get`, embedded as a function
`String → Option String`. -/
def Fmt.format (f : Fmt) (content : String) (vars : String → Option String) : String :=
  String.mk (formatFuel f vars content.data.length content.data)

/-! ### Basic facts about the scanner -/

theorem takeIdent_length {l n r} (h : takeIdent l = some (n, r)) : r.length < l.length := by
  match l with
  | [] => simp [takeIdent] at h
  | c :: rest =>
    simp only [takeIdent] at h
    split at h
    · cases h
      calc (rest.dropWhile isIdentChar).length
          ≤ rest.length := (List.dropWhile_suffix isIdentChar).length_le
        _ < rest.length + 1 := Nat.lt_succ_self _
    · cases h

theorem braceMatch_length {l n r} (h : braceMatch l = some (n, r)) : r.length < l.length := by
  match l with
  | [] => simp [braceMatch] at h
  | c :: rest =>
    by_cases hc : c = '{'
    · simp only [braceMatch, if_pos hc] at h
      match htake : takeIdent rest with
      | none => simp only [htake] at h; exact Option.noConfusion h
      | some (name, []) => simp only [htake] at h; exact Option.noConfusion h
      | some (name, d :: rest') =>
        simp only [htake] at h
        by_cases hd : d = '}'
        · rw [if_pos hd] at h
          cases h
          have := takeIdent_length htake
          simp only [List.length_cons] at this ⊢
          omega
        · rw [if_neg hd] at h; exact Option.noConfusion h
    · simp only [braceMatch, if_neg hc] at h
      exact Option.noConfusion h

theorem dollarMatch_length {l n r} (h : dollarMatch l = some (n, r)) : r.length < l.length := by
  match l with
  | [] => simp [dollarMatch] at h
  | c :: rest =>
    by_cases hc : c = '$'
    · simp only [dollarMatch, if_pos hc] at h
      have := takeIdent_length h
      simp only [List.length_cons]
      omega
    · simp only [dollarMatch, if_neg hc] at h
      exact Option.noConfusion h

theorem fmtMatch_length {f l n r} (h : fmtMatch f l = some (n, r)) : r.length < l.length := by
  cases f with
  | brace => exact braceMatch_length h
  | dollar => exact dollarMatch_length h

theorem fmtMatch_none_of_head {f : Fmt} {c : Char} {rest : List Char}
    (h : c ≠ trigger f) : fmtMatch f (c :: rest) = none := by
  cases f with
  | brace => simp only [fmtMatch, braceMatch]; rw [if_neg (by simpa [trigger] using h)]
  | dollar => simp only [fmtMatch, dollarMatch]; rw [if_neg (by simpa [trigger] using h)]

theorem takeIdent_valid {l n r} (h : takeIdent l = some (n, r)) :
    validate_variable_name (String.mk n) = true := by
  match l with
  | [] => simp [takeIdent] at h
  | c :: rest =>
    simp only [takeIdent] at h
    split at h
    · cases h
      rename_i hstart
      simp only [validate_variable_name, Bool.and_eq_true, List.all_eq_true]
      exact ⟨hstart, fun x hx => List.mem_takeWhile_imp hx⟩
    · cases h

theorem fmtMatch_valid {f l n r} (h : fmtMatch f l = some (n, r)) :
    validate_variable_name (String.mk n) = true := by
  cases f with
  | brace =>
    match l with
    | [] => simp [fmtMatch, braceMatch] at h
    | c :: rest =>
      by_cases hc : c = '{'
      · simp only [fmtMatch, braceMatch, if_pos hc] at h
        match htake : takeIdent rest with
        | none => simp only [htake] at h; exact Option.noConfusion h
        | some (name, []) => simp only [htake] at h; exact Option.noConfusion h
        | some (name, d :: rest') =>
          simp only [htake] at h
          by_cases hd : d = '}'
          · rw [if_pos hd] at h; cases h; exact takeIdent_valid htake
          · rw [if_neg hd] at h; exact Option.noConfusion h
      · simp only [fmtMatch, braceMatch, if_neg hc] at h
        exact Option.noConfusion h
  | dollar =>
    match l with
    | [] => simp [fmtMatch, dollarMatch] at h
    | c :: rest =>
      by_cases hc : c = '$'
      · simp only [fmtMatch, dollarMatch, if_pos hc] at h
        exact takeIdent_valid h
      · simp only [fmtMatch, dollarMatch, if_neg hc] at h
        exact Option.noConfusion h

/-- Fuel irrelevance: any fuel at least the length of the list produces the
same scan. -/
theorem scanFuel_congr (f : Fmt) :
    ∀ (fuel₁ fuel₂ : Nat) (l : List Char), l.length ≤ fuel₁ → l.length ≤ fuel₂ →
      scanFuel f fuel₁ l = scanFuel f fuel₂ l := by
  intro fuel₁
  induction fuel₁ with
  | zero =>
    intro fuel₂ l h₁ _
    have : l = [] := List.eq_nil_of_length_eq_zero (Nat.le_zero.mp h₁)
    subst this
    cases fuel₂ <;> simp [scanFuel]
  | succ fuel ih =>
    intro fuel₂ l h₁ h₂
    match l with
    | [] => cases fuel₂ <;> simp [scanFuel]
    | c :: rest =>
      match fuel₂ with
      | 0 => simp at h₂
      | fuel₂' + 1 =>
        match hm : fmtMatch f (c :: rest) with
        | some (name, rest') =>
          have hlen := fmtMatch_length hm
          simp only [List.length_cons] at h₁ h₂ hlen
          simp only [scanFuel, hm]
          rw [ih fuel₂' rest' (by omega) (by omega)]
        | none =>
          simp only [List.length_cons] at h₁ h₂
          simp only [scanFuel, hm]
          rw [ih fuel₂' rest (by omega) (by omega)]

theorem scanF_nil (f : Fmt) : scanF f [] = [] := rfl

/-- The step equation of the scan: at each position, either the variant
regex matches and the scan continues after the match, or the head character
is literal text and the scan continues at the next position. -/
theorem scanF_cons (f : Fmt) (c : Char) (rest : List Char) :
    scanF f (c :: rest) =
      match fmtMatch f (c :: rest) with
      | some (name, rest') => Seg.ref name :: scanF f rest'
      | none => Seg.lit c :: scanF f rest := by
  unfold scanF
  match hm : fmtMatch f (c :: rest) with
  | some (name, rest') =>
    have hlen := fmtMatch_length hm
    simp only [List.length_cons] at hlen
    simp only [List.length_cons, scanFuel, hm]
    rw [scanFuel_congr f rest.length rest'.length rest' (by omega) (by omega)]
  | none => simp only [List.length_cons, scanFuel, hm]

/-! ### Segment-level semantics of substitution -/

/-- The text one segment contributes to the output of `format`: literal
characters are copied; a matched reference becomes the bound value when its
name is bound and stays verbatim otherwise. -/
def renderSeg (f : Fmt) (vars : String → Option String) : Seg → List Char
  | .lit c => [c]
  | .ref n =>
    match vars (String.mk n) with
    | some v => v.data
    | none => rawRef f n

/-- Concatenation of the per-segment outputs. -/
def renderSegs (f : Fmt) (vars : String → Option String) : List Seg → List Char
  | [] => []
  | s :: rest => renderSeg f vars s ++ renderSegs f vars rest

theorem formatFuel_eq_renderSegs (f : Fmt) (vars : String → Option String) :
    ∀ (fuel : Nat) (l : List Char), l.length ≤ fuel →
      formatFuel f vars fuel l = renderSegs f vars (scanFuel f fuel l) := by
  intro fuel
  induction fuel with
  | zero =>
    intro l h
    have : l = [] := List.eq_nil_of_length_eq_zero (Nat.le_zero.mp h)
    subst this
    rfl
  | succ fuel ih =>
    intro l h
    match l with
    | [] => rfl
    | c :: rest =>
      match hm : fmtMatch f (c :: rest) with
      | some (name, rest') =>
        have hlen := fmtMatch_length hm
        simp only [List.length_cons] at h hlen
        simp only [formatFuel, scanFuel, hm, renderSegs, renderSeg]
        rw [ih rest' (by omega)]
      | none =>
        simp only [List.length_cons] at h
        simp only [formatFuel, scanFuel, hm, renderSegs, renderSeg, List.singleton_append]
        rw [ih rest (by omega)]

theorem format_eq_renderSegs (f : Fmt) (content : String) (vars : String → Option String) :
    Fmt.format f content vars = String.mk (renderSegs f vars (scanF f content.data)) := by
  unfold Fmt.format scanF
  rw [formatFuel_eq_renderSegs f vars content.data.length content.data (Nat.le_refl _)]

/-! ### No new references without the trigger character -/

theorem scanFuel_all_lit (f : Fmt) :
    ∀ (fuel : Nat) (l : List Char), l.length ≤ fuel → (∀ c ∈ l, c ≠ trigger f) →
      scanFuel f fuel l = l.map Seg.lit := by
  intro fuel
  induction fuel with
  | zero =>
    intro l h _
    have : l = [] := List.eq_nil_of_length_eq_zero (Nat.le_zero.mp h)
    subst this
    rfl
  | succ fuel ih =>
    intro l h hlit
    match l with
    | [] => rfl
    | c :: rest =>
      have hm : fmtMatch f (c :: rest) = none :=
        fmtMatch_none_of_head (hlit c (List.mem_cons_self c rest))
      simp only [List.length_cons] at h
      simp only [scanFuel, hm, List.map_cons]
      rw [ih rest (by omega) (fun x hx => hlit x (List.mem_cons_of_mem c hx))]

theorem refNames_map_lit (l : List Char) : refNames (l.map Seg.lit) = [] := by
  induction l with
  | nil => rfl
  | cons c rest ih =>
    simp only [List.map_cons, refNames, List.filterMap_cons]
    exact ih

/-- If the content has no occurrence of the trigger character of the
variant, the scan finds no reference at all. -/
theorem extract_arguments_of_no_trigger (f : Fmt) (s : String)
    (h : ∀ c ∈ s.data, c ≠ trigger f) :
    Fmt.extract_arguments f s = Except.ok (∅ : Finset String) := by
  unfold Fmt.extract_arguments scanF
  rw [scanFuel_all_lit f s.data.length s.data (Nat.le_refl _) h, refNames_map_lit]
  rfl

theorem mem_renderSegs (f : Fmt) (vars : String → Option String) :
    ∀ (segs : List Seg) (c : Char), c ∈ renderSegs f vars segs →
      ∃ s ∈ segs, c ∈ renderSeg f vars s := by
  intro segs
  induction segs with
  | nil => intro c hc; cases hc
  | cons s rest ih =>
    intro c hc
    rcases List.mem_append.mp hc with h | h
    · exact ⟨s, List.mem_cons_self s rest, h⟩
    · obtain ⟨t, ht, hct⟩ := ih c h
      exact ⟨t, List.mem_cons_of_mem s ht, hct⟩

theorem ref_mem_refNames {segs : List Seg} {n : List Char}
    (h : Seg.ref n ∈ segs) : n ∈ refNames segs := by
  induction segs with
  | nil => cases h
  | cons s rest ih =>
    rcases List.mem_cons.mp h with h | h
    · subst h; simp [refNames, List.filterMap_cons]
    · simp only [refNames, List.filterMap_cons]
      split <;> simp_all [refNames]

/-! ### Totality of extraction -/

theorem scanFuel_refNames_valid (f : Fmt) :
    ∀ (fuel : Nat) (l : List Char), l.length ≤ fuel →
      ∀ n ∈ refNames (scanFuel f fuel l), validate_variable_name (String.mk n) = true := by
  intro fuel
  induction fuel with
  | zero =>
    intro l h
    have : l = [] := List.eq_nil_of_length_eq_zero (Nat.le_zero.mp h)
    subst this
    intro n hn
    cases hn
  | succ fuel ih =>
    intro l h n hn
    match l with
    | [] => cases hn
    | c :: rest =>
      match hm : fmtMatch f (c :: rest) with
      | some (name, rest') =>
        have hlen := fmtMatch_length hm
        simp only [List.length_cons] at h hlen
        simp only [scanFuel, hm, refNames, List.filterMap_cons] at hn
        rcases List.mem_cons.mp hn with h' | h'
        · subst h'; exact fmtMatch_valid hm
        · exact ih rest' (by omega) n h'
      | none =>
        simp only [List.length_cons] at h
        simp only [scanFuel, hm, refNames, List.filterMap_cons] at hn
        exact ih rest (by omega) n hn

theorem collectArgs_ok {names : List String}
    (h : ∀ n ∈ names, validate_variable_name n = true) :
    collectArgs names = Except.ok names.toFinset := by
  induction names with
  | nil => rfl
  | cons n rest ih =>
    simp only [collectArgs, if_pos (h n (List.mem_cons_self n rest))]
    rw [ih (fun x hx => h x (List.mem_cons_of_mem n hx))]
    simp [Except.map, List.toFinset_cons]

/-- `extract_arguments` never takes its error branch: it always returns the
set of matched names. -/
theorem extract_arguments_eq (f : Fmt) (content : String) :
    Fmt.extract_arguments f content = Except.ok (extractSet f content) := by
  unfold Fmt.extract_arguments extractSet
  apply collectArgs_ok
  intro n hn
  obtain ⟨m, hm, rfl⟩ := List.mem_map.mp hn
  exact scanFuel_refNames_valid f content.data.length content.data (Nat.le_refl _) m hm

/-! ### Data model (model.rs) and association-list maps

`HashMap<String, String>` values are embedded as association lists:
`lookupB` is `HashMap::get` (the embedding keeps at most one visible entry
per key because `insertB` removes the old entry), `insertB` is
`HashMap::insert`. -/

/-- Embeds `Argument` (model.rs:5-14). -/
structure Argument where
  name : String
  description : String
  default : Option String
deriving DecidableEq

/-- Embeds `PromptData` (model.rs:18-29). -/
structure PromptData where
  name : String
  title : String
  description : String
  arguments : List Argument
  content : String
deriving DecidableEq

def lookupB (b : List (String × String)) (k : String) : Option String :=
  (b.find? (fun p => p.1 == k)).map (fun p => p.2)

def insertB (b : List (String × String)) (k v : String) : List (String × String) :=
  (k, v) :: b.filter (fun p => p.1 != k)

/-- Embeds `MarkdownPrompt` (mcp.rs:130-136). -/
structure MarkdownPrompt where
  name : String
  title : String
  description : String
  arguments : List Argument
  content : String
deriving DecidableEq

/-- Embeds `MarkdownPrompt::new` (mcp.rs:138-199). With auto-discovery the
declared arguments must be empty and one argument per matched variable is
built, sorted by name; otherwise the declared names are validated in order
and the matched-name set must equal the declared-name set. The Rust code
interpolates the two debug-printed sets into the mismatch message and
quotes the offending name in the invalid-name message; the set
interpolation (hash iteration order) and the quote marks are elided here,
with no claim depending on those message texts. -/
def MarkdownPrompt.new (pd : PromptData) (f : Fmt) (autoDiscoverArgs : Bool) :
    Except String MarkdownPrompt :=
  if autoDiscoverArgs then
    if pd.arguments.isEmpty then
      match f.extract_arguments pd.content with
      | .error e => .error (formatterErrorMessage e)
      | .ok discovered =>
        .ok { name := pd.name, title := pd.title, description := pd.description,
              arguments := (discovered.sort (· ≤ ·)).map
                (fun n => { name := n, description := "", default := none }),
              content := pd.content }
    else .error "prompt_data.arguments must be empty when auto_discover_args is enabled"
  else
    match pd.arguments.find? (fun a => !validate_variable_name a.name) with
    | some a => .error ("Argument name " ++ a.name ++ " contains invalid characters")
    | none =>
      match f.extract_arguments pd.content with
      | .error e => .error (formatterErrorMessage e)
      | .ok discovered =>
        if discovered = (pd.arguments.map Argument.name).toFinset then
          .ok { name := pd.name, title := pd.title, description := pd.description,
                arguments := pd.arguments, content := pd.content }
        else .error "Content arguments do not match provided arguments"

/-- The render error of mcp.rs:219-222. The Rust code debug-prints the
missing names in `HashSet` iteration order, which is unspecified, so the
embedding records the set of missing names. -/
inductive RenderError where
  | missingRequiredArguments (names : Finset String)
deriving DecidableEq

def renderErrorMessage : RenderError → String
  | .missingRequiredArguments _ => "Missing required arguments"

/-- Names of the arguments without a default (mcp.rs:207-212). -/
def requiredSet (p : MarkdownPrompt) : Finset String :=
  ((p.arguments.filter (fun a => a.default.isNone)).map Argument.name).toFinset

/-- Keys of the supplied bindings (mcp.rs:214-217). -/
def providedSet (arguments : Option (List (String × String))) : Finset String :=
  ((arguments.getD []).map Prod.fst).toFinset

/-- The merged variables map of mcp.rs:224-233: insert every argument
default in declaration order, then insert every supplied pair. -/
def buildRenderArgs (args : List Argument) (supplied : List (String × String)) :
    List (String × String) :=
  let withDefaults := args.foldl
    (fun m a => match a.default with | some d => insertB m a.name d | none => m) []
  supplied.foldl (fun m p => insertB m p.1 p.2) withDefaults

/-- Embeds `MarkdownPrompt::render` (mcp.rs:201-237): fail when some
required name is missing from the supplied keys, and otherwise substitute
under the merged variables map. -/
def MarkdownPrompt.render (p : MarkdownPrompt)
    (arguments : Option (List (String × String))) (f : Fmt) : Except RenderError String :=
  if requiredSet p \ providedSet arguments = ∅ then
    .ok (Fmt.format f p.content (lookupB (buildRenderArgs p.arguments (arguments.getD []))))
  else .error (.missingRequiredArguments (requiredSet p \ providedSet arguments))

/-- The default that `buildRenderArgs` leaves visible for a key: the default
of the last argument with that name that has one (later inserts overwrite
earlier ones). -/
def defaultFor (args : List Argument) (k : String) : Option String :=
  lookupB ((args.filterMap (fun a => a.default.map (fun d => (a.name, d)))).reverse) k

/-! ### Protocol surface (mcp.rs) -/

/-- Embeds the `PromptArgument` reply record (mcp.rs:103-108). -/
structure PromptArgument where
  name : String
  description : String
  required : Bool
deriving DecidableEq

/-- Embeds the `PromptInfo` reply record (mcp.rs:95-101); `arguments = none`
is serialized by skipping the field. -/
structure PromptInfo where
  name : String
  description : String
  arguments : Option (List PromptArgument)
deriving DecidableEq

/-- Embeds `MarkdownPrompt::to_prompt_info` (mcp.rs:239-260). -/
def MarkdownPrompt.to_prompt_info (p : MarkdownPrompt) : PromptInfo :=
  { name := p.name, description := p.description,
    arguments :=
      if p.arguments.isEmpty then none
      else some (p.arguments.map
        (fun a => { name := a.name, description := a.description,
                    required := a.default.isNone })) }

/-- Shallow model of `serde_json::Value`. Numbers are embedded as integers;
the requests and replies of the claims only carry integral numbers. -/
inductive Json where
  | null
  | bool (b : Bool)
  | num (n : Int)
  | str (s : String)
  | arr (elems : List Json)
  | obj (fields : List (String × Json))

/-- `Value::get` on an object (field lookup), `None` on anything else. -/
def Json.get (j : Json) (key : String) : Option Json :=
  match j with
  | .obj fields => ((fields.find? (fun p => p.1 == key)).map (fun p => p.2))
  | _ => none

def Json.asStr (j : Json) : Option String :=
  match j with
  | .str s => some s
  | _ => none

/-- `serde_json::from_value::<HashMap<String, String>>`: succeeds exactly on
an object whose values are all strings (mcp.rs:367-369 deserializes the
`arguments` params field at this type and discards failures with `.ok()`). -/
def decodeStringMap : Json → Option (List (String × String))
  | .obj fields => fields.mapM (fun p => match p.2 with | .str s => some (p.1, s) | _ => none)
  | _ => none

/-- The build-time `env!("CARGO_PKG_VERSION")` string of mcp.rs:330; its
value is fixed at compile time and does not matter to any claim. -/
def cargoPkgVersion : String := "0.1.0"

/-- The `initialize` result object (mcp.rs:320-338). -/
def initializeResultJson : Json :=
  .obj [("protocolVersion", .str "2024-11-05"),
        ("capabilities", .obj [("prompts", .obj [("listChanged", .bool false)])]),
        ("serverInfo", .obj [("name", .str "shinkuro"), ("version", .str cargoPkgVersion)])]

def promptArgumentJson (a : PromptArgument) : Json :=
  .obj [("name", .str a.name), ("description", .str a.description),
        ("required", .bool a.required)]

def promptInfoJson (i : PromptInfo) : Json :=
  .obj ([("name", .str i.name), ("description", .str i.description)] ++
    (match i.arguments with
     | none => []
     | some l => [("arguments", .arr (l.map promptArgumentJson))]))

def promptsGetResultJson (description content : String) : Json :=
  .obj [("description", .str description),
        ("messages", .arr [.obj [("role", .str "user"),
          ("content", .obj [("type", .str "text"), ("text", .str content)])]])]

/-- The `{:?}` rendering of the `method` option in the unknown-method error
message (mcp.rs:414). -/
def methodNotFoundMessage : Option String → String
  | none => "Method not found: None"
  | some m => "Method not found: Some(\"" ++ m ++ "\")"

/-- The `prompts/get` arm of `handle_request` after params decoding
(mcp.rs:371-409): look the prompt up by name, propagating a `Prompt not
found` error with `?` when it is absent, and otherwise render it, turning a
render failure into a `-32602` error reply. -/
def handleGet (id : Json) (name : String) (arguments : Option (List (String × String)))
    (prompts : List MarkdownPrompt) (f : Fmt) : Except String (Option Json) :=
  match prompts.find? (fun p => p.name == name) with
  | none => .error ("Prompt not found: " ++ name)
  | some prompt =>
    match prompt.render arguments f with
    | .ok content =>
      .ok (some (.obj [("jsonrpc", .str "2.0"), ("id", id),
        ("result", promptsGetResultJson prompt.description content)]))
    | .error e =>
      .ok (some (.obj [("jsonrpc", .str "2.0"), ("id", id),
        ("error", .obj [("code", .num (-32602)),
          ("message", .str ("Failed to render prompt: " ++ renderErrorMessage e))])]))

/-- Embeds `handle_request` (mcp.rs:311-424). A returned `Except.error` is
an `anyhow` error propagated to the caller with `?`; `Except.ok none` is a
handled request with no reply (notification); `Except.ok (some j)` is a
handled request whose reply line is `j`. -/
def handleRequest (request : Json) (prompts : List MarkdownPrompt) (f : Fmt) :
    Except String (Option Json) :=
  let method := (request.get "method").bind Json.asStr
  let id := (request.get "id").getD Json.null
  match method with
  | some "initialize" =>
    .ok (some (.obj [("jsonrpc", .str "2.0"), ("id", id), ("result", initializeResultJson)]))
  | some "notifications/initialized" => .ok none
  | some "prompts/list" =>
    .ok (some (.obj [("jsonrpc", .str "2.0"), ("id", id),
      ("result", .obj [("prompts",
        .arr (prompts.map (fun p => promptInfoJson p.to_prompt_info)))])]))
  | some "prompts/get" =>
    let params := request.get "params"
    match (params.bind (fun p => p.get "name")).bind Json.asStr with
    | none => .error "Missing prompt name"
    | some name =>
      handleGet id name ((params.bind (fun p => p.get "arguments")).bind decodeStringMap)
        prompts f
  | _ =>
    .ok (some (.obj [("jsonrpc", .str "2.0"), ("id", id),
      ("error", .obj [("code", .num (-32601)),
        ("message", .str (methodNotFoundMessage method))])]))

/-- Embeds the request loop of `run_server` (mcp.rs:284-308) on the list of
request objects parsed from the input lines (blank and unparsable lines are
skipped before `handle_request` is reached, mcp.rs:286-297). The `?` on
`handle_request` (mcp.rs:299) turns a request-handling error into the
return value of `run_server`, abandoning all later requests; `main`
(main.rs:23-26) then prints the error and exits the process. -/
def runServer (requests : List Json) (prompts : List MarkdownPrompt) (f : Fmt) :
    Except String (List Json) :=
  match requests with
  | [] => .ok []
  | r :: rest =>
    match handleRequest r prompts f with
    | .error e => .error e
    | .ok none => runServer rest prompts f
    | .ok (some resp) => (runServer rest prompts f).map (fun tail => resp :: tail)

/-! ### Lookup lemmas for the association-list maps -/

theorem lookupB_nil (k : String) : lookupB [] k = none := rfl

theorem lookupB_cons (q : String × String) (rest : List (String × String)) (k : String) :
    lookupB (q :: rest) k = if q.1 = k then some q.2 else lookupB rest k := by
  unfold lookupB
  by_cases h : q.1 = k
  · rw [List.find?_cons_of_pos _ (by simpa using h), if_pos h]
    rfl
  · rw [List.find?_cons_of_neg _ (by simpa using h), if_neg h]

theorem lookupB_eq_none_of_not_mem {rest : List (String × String)} {k : String}
    (h : k ∉ rest.map Prod.fst) : lookupB rest k = none := by
  unfold lookupB
  rw [List.find?_eq_none.mpr]
  · rfl
  · intro p hp hbeq
    exact h (List.mem_map.mpr ⟨p, hp, by simpa using hbeq⟩)

theorem find?_filter_ne (b : List (String × String)) (k k' : String) (hne : k' ≠ k) :
    (b.filter (fun p => p.1 != k)).find? (fun p => p.1 == k') =
      b.find? (fun p => p.1 == k') := by
  induction b with
  | nil => rfl
  | cons q rest ih =>
    by_cases hq : q.1 = k
    · rw [List.filter_cons_of_neg (by simpa using hq), ih,
        List.find?_cons_of_neg _ (by simp [hq]; exact fun hc => hne hc.symm)]
    · rw [List.filter_cons_of_pos (by simpa using hq)]
      by_cases hk' : q.1 = k'
      · rw [List.find?_cons_of_pos _ (by simpa using hk'),
          List.find?_cons_of_pos _ (by simpa using hk')]
      · rw [List.find?_cons_of_neg _ (by simpa using hk'),
          List.find?_cons_of_neg _ (by simpa using hk'), ih]

theorem lookupB_insertB (b : List (String × String)) (k v k' : String) :
    lookupB (insertB b k v) k' = if k' = k then some v else lookupB b k' := by
  unfold insertB
  rw [lookupB_cons]
  by_cases h : k' = k
  · rw [if_pos h.symm, if_pos h]
  · rw [if_neg (fun hc => h hc.symm), if_neg h]
    unfold lookupB
    rw [find?_filter_ne b k k' h]

theorem lookupB_foldl_insert (supplied : List (String × String)) :
    ∀ (m0 : List (String × String)) (k : String), (supplied.map Prod.fst).Nodup →
      lookupB (supplied.foldl (fun m p => insertB m p.1 p.2) m0) k =
        match lookupB supplied k with
        | some v => some v
        | none => lookupB m0 k := by
  induction supplied with
  | nil => intro m0 k _; rfl
  | cons q rest ih =>
    intro m0 k hnd
    have hnd' : (rest.map Prod.fst).Nodup := by
      simpa using (List.nodup_cons.mp (by simpa using hnd)).2
    have hq : q.1 ∉ rest.map Prod.fst :=
      (List.nodup_cons.mp (by simpa using hnd)).1
    simp only [List.foldl_cons]
    rw [ih (insertB m0 q.1 q.2) k hnd', lookupB_insertB, lookupB_cons]
    by_cases hk : q.1 = k
    · rw [if_pos hk, if_pos hk.symm]
      rw [hk] at hq
      rw [lookupB_eq_none_of_not_mem hq]
    · rw [if_neg hk, if_neg (fun hc => hk hc.symm)]

theorem lookupB_append (l₁ l₂ : List (String × String)) (k : String) :
    lookupB (l₁ ++ l₂) k =
      match lookupB l₁ k with
      | some v => some v
      | none => lookupB l₂ k := by
  induction l₁ with
  | nil => rfl
  | cons q rest ih =>
    rw [List.cons_append, lookupB_cons, lookupB_cons]
    by_cases hk : q.1 = k
    · rw [if_pos hk, if_pos hk]
    · rw [if_neg hk, if_neg hk, ih]

theorem opt_match_id (o : Option String) :
    (match o with | some v => some v | none => (none : Option String)) = o := by
  cases o <;> rfl

theorem defaultFor_cons (a : Argument) (rest : List Argument) (k : String) :
    defaultFor (a :: rest) k =
      match defaultFor rest k with
      | some v => some v
      | none =>
        match a.default with
        | some d => if a.name = k then some d else none
        | none => none := by
  unfold defaultFor
  rw [List.filterMap_cons]
  cases hd : a.default with
  | none => exact (opt_match_id _).symm
  | some d =>
    simp only [Option.map_some', List.reverse_cons, lookupB_append, lookupB_cons, lookupB_nil]

theorem lookupB_foldl_defaults (args : List Argument) :
    ∀ (m0 : List (String × String)) (k : String),
      lookupB (args.foldl
        (fun m a => match a.default with | some d => insertB m a.name d | none => m) m0) k =
        match defaultFor args k with
        | some v => some v
        | none => lookupB m0 k := by
  induction args with
  | nil => intro m0 k; rfl
  | cons a rest ih =>
    intro m0 k
    simp only [List.foldl_cons]
    rw [ih, defaultFor_cons]
    cases hr : defaultFor rest k with
    | some v => rfl
    | none =>
      simp only
      cases hd : a.default with
      | none => rfl
      | some d =>
        simp only [lookupB_insertB]
        by_cases hk : a.name = k
        · rw [if_pos hk, if_pos hk.symm]
        · rw [if_neg hk, if_neg (fun hc => hk hc.symm)]

/-- The lookup behavior of the merged variables map of `render`: a supplied
binding always wins; otherwise the (last) declared default for that name is
used. -/
theorem lookupB_buildRenderArgs (args : List Argument) (supplied : List (String × String))
    (k : String) (hnd : (supplied.map Prod.fst).Nodup) :
    lookupB (buildRenderArgs args supplied) k =
      match lookupB supplied k with
      | some v => some v
      | none => defaultFor args k := by
  unfold buildRenderArgs
  rw [lookupB_foldl_insert supplied _ k hnd, lookupB_foldl_defaults args [] k]
  cases lookupB supplied k <;> cases h : defaultFor args k <;> simp [lookupB_nil, h]

/-! ### Membership characterizations for `requiredSet` and `providedSet` -/

theorem mem_requiredSet {p : MarkdownPrompt} {x : String} :
    x ∈ requiredSet p ↔ ∃ a ∈ p.arguments, a.default = none ∧ a.name = x := by
  unfold requiredSet
  simp only [List.mem_toFinset, List.mem_map, List.mem_filter]
  constructor
  · rintro ⟨a, ⟨ha, hd⟩, rfl⟩
    exact ⟨a, ha, Option.isNone_iff_eq_none.mp hd, rfl⟩
  · rintro ⟨a, ha, hd, rfl⟩
    exact ⟨a, ⟨ha, Option.isNone_iff_eq_none.mpr hd⟩, rfl⟩

theorem mem_providedSet {arguments : Option (List (String × String))} {x : String} :
    x ∈ providedSet arguments ↔ x ∈ (arguments.getD []).map Prod.fst := by
  unfold providedSet
  exact List.mem_toFinset

/-! ### Decidable equality of `Except` results, for concrete evaluations -/

instance exceptDecEq {ε α : Type} [DecidableEq ε] [DecidableEq α] :
    DecidableEq (Except ε α) := fun a b =>
  match a, b with
  | .error e, .error e' =>
    if h : e = e' then .isTrue (by rw [h]) else .isFalse (fun hc => h (by cases hc; rfl))
  | .ok x, .ok y =>
    if h : x = y then .isTrue (by rw [h]) else .isFalse (fun hc => h (by cases hc; rfl))
  | .error _, .ok _ => .isFalse (fun hc => Except.noConfusion hc)
  | .ok _, .error _ => .isFalse (fun hc => Except.noConfusion hc)

/-! ### Claims about the formatters (C3, C9, C2) -/

/-- C3: for every content string and binding map, substitution under either
formatter variant equals the segment-wise rendering of the scan of the
input content: each matched reference whose name has a binding becomes the
bound value, each matched reference without a binding stays verbatim as its
raw match text, every character outside a match is copied unchanged, and
bound values are never re-scanned (the scan is of the input content only,
and each segment contributes its rendering to the output exactly once). -/
theorem substitution_replaces_matched_references (f : Fmt) (content : String)
    (vars : String → Option String) :
    Fmt.format f content vars = String.mk (renderSegs f vars (scanF f content.data)) ∧
    (∀ c, renderSeg f vars (Seg.lit c) = [c]) ∧
    (∀ n v, vars (String.mk n) = some v → renderSeg f vars (Seg.ref n) = v.data) ∧
    (∀ n, vars (String.mk n) = none → renderSeg f vars (Seg.ref n) = rawRef f n) := by
  refine ⟨format_eq_renderSegs f content vars, fun c => rfl, ?_, ?_⟩
  · intro n v hv
    simp [renderSeg, hv]
  · intro n hn
    simp [renderSeg, hn]

/-- Bindings of the worked example of the specification: `name` is Alice,
`project` is Rust. -/
def demoVars : String → Option String := fun k =>
  if k = "name" then some "Alice" else if k = "project" then some "Rust" else none

theorem substitution_replaces_matched_references_witness :
    Fmt.format Fmt.brace "Hello \x7bname\x7d, welcome to \x7bproject\x7d!" demoVars =
      "Hello Alice, welcome to Rust!" := by
  rw [(substitution_replaces_matched_references Fmt.brace
    "Hello \x7bname\x7d, welcome to \x7bproject\x7d!" demoVars).1]
  decide

/-- C9: `extract_arguments` always returns successfully, with the set of
matched names; its `InvalidVariableName` error branch is unreachable,
because every name captured by the matching pattern is identifier-shaped. -/
theorem extract_arguments_never_fails (f : Fmt) (content : String) :
    Fmt.extract_arguments f content = Except.ok (extractSet f content) :=
  extract_arguments_eq f content

/-- C2 counterexample: the content is exactly one brace reference to `a`,
and `a` is bound, yet extracting from the substituted output is not the
empty set, because the bound value itself contains a reference to `b`. -/
def roundTripContent : String := "\x7ba\x7d"

def roundTripVars : String → Option String := fun k =>
  if k = "a" then some "\x7bb\x7d" else none

theorem substitution_closure_cex :
    extractSet Fmt.brace roundTripContent = {"a"} ∧
    roundTripVars "a" = some "\x7bb\x7d" ∧
    Fmt.extract_arguments Fmt.brace
        (Fmt.format Fmt.brace roundTripContent roundTripVars) ≠
      Except.ok (∅ : Finset String) := by
  refine ⟨by decide, by decide, by decide⟩

/-- C2 (amended): for every content string, formatter variant, and binding
map that binds every extracted name, extraction from the substituted output
is the empty set, provided additionally that no bound value used for a
reference contains the trigger character of the variant and the content has
no literal (unmatched) occurrence of the trigger character. Without these
two extra conditions the property fails (`substitution_closure_cex`). -/
theorem substitution_closure (f : Fmt) (content : String) (vars : String → Option String)
    (hbound : ∀ n ∈ refNames (scanF f content.data),
      ∃ v, vars (String.mk n) = some v ∧ ∀ c ∈ v.data, c ≠ trigger f)
    (hlit : Seg.lit (trigger f) ∉ scanF f content.data) :
    Fmt.extract_arguments f (Fmt.format f content vars) = Except.ok (∅ : Finset String) := by
  apply extract_arguments_of_no_trigger
  intro c hc
  rw [format_eq_renderSegs] at hc
  have hc' : c ∈ renderSegs f vars (scanF f content.data) := hc
  obtain ⟨s, hs, hcs⟩ := mem_renderSegs f vars (scanF f content.data) c hc'
  match s with
  | .lit c' =>
    have : c = c' := by simpa [renderSeg] using hcs
    subst this
    intro hct
    rw [hct] at hs
    exact hlit hs
  | .ref n =>
    obtain ⟨v, hv, hvc⟩ := hbound n (ref_mem_refNames hs)
    rw [renderSeg, hv] at hcs
    exact hvc c hcs

theorem substitution_closure_witness :
    Fmt.extract_arguments Fmt.brace
        (Fmt.format Fmt.brace "Hello \x7bname\x7d!"
          (fun k => if k = "name" then some "Alice" else none)) =
      Except.ok (∅ : Finset String) := by
  apply substitution_closure
  · intro n hn
    have hlist : refNames (scanF Fmt.brace ("Hello \x7bname\x7d!").data) =
        [['n', 'a', 'm', 'e']] := by decide
    rw [hlist] at hn
    rcases List.mem_singleton.mp hn with rfl
    refine ⟨"Alice", by decide, ?_⟩
    intro c hc
    exact (by decide : ∀ c ∈ ("Alice").data, c ≠ trigger Fmt.brace) c hc
  · decide

/-! ### Claims about prompt construction (C4, C5) -/

/-- C4: with auto-discovery disabled, construction succeeds exactly when
every declared argument name matches the identifier pattern and the set of
names matched in the content equals the set of declared names; in
particular it fails when an argument is declared but absent from the
content (set inequality) and when the content references an undeclared
variable (set inequality). -/
theorem prompt_construction_iff (pd : PromptData) (f : Fmt) :
    (∃ p, MarkdownPrompt.new pd f false = Except.ok p) ↔
      ((∀ a ∈ pd.arguments, validate_variable_name a.name = true) ∧
        extractSet f pd.content = (pd.arguments.map Argument.name).toFinset) := by
  unfold MarkdownPrompt.new
  rw [if_neg Bool.false_ne_true]
  cases hfind : pd.arguments.find? (fun a => !validate_variable_name a.name) with
  | some a =>
    simp only [hfind]
    constructor
    · rintro ⟨p, hp⟩
      exact Except.noConfusion hp
    · rintro ⟨h1, -⟩
      have ha := List.find?_some hfind
      have hmem := List.mem_of_find?_eq_some hfind
      rw [h1 a hmem] at ha
      exact Bool.noConfusion ha
  | none =>
    simp only [hfind, extract_arguments_eq]
    have hall : ∀ a ∈ pd.arguments, validate_variable_name a.name = true := by
      intro a ha
      have := List.find?_eq_none.mp hfind a ha
      simpa using this
    by_cases heq : extractSet f pd.content = (pd.arguments.map Argument.name).toFinset
    · rw [if_pos heq]
      exact ⟨fun _ => ⟨hall, heq⟩, fun _ => ⟨_, rfl⟩⟩
    · rw [if_neg heq]
      constructor
      · rintro ⟨p, hp⟩
        exact Except.noConfusion hp
      · rintro ⟨-, h2⟩
        exact absurd h2 heq

/-- C5: with auto-discovery enabled, construction fails exactly when the
record declares any arguments, and otherwise succeeds with one argument per
matched variable name of the content, each with empty description and no
default, in ascending name order. -/
theorem auto_discovery_spec (pd : PromptData) (f : Fmt) :
    MarkdownPrompt.new pd f true =
      (if pd.arguments.isEmpty then
        Except.ok { name := pd.name, title := pd.title, description := pd.description,
                    arguments := ((extractSet f pd.content).sort (· ≤ ·)).map
                      (fun n => { name := n, description := "", default := none }),
                    content := pd.content }
      else
        Except.error
          "prompt_data.arguments must be empty when auto_discover_args is enabled") := by
  unfold MarkdownPrompt.new
  rw [if_pos rfl]
  by_cases he : pd.arguments.isEmpty
  · rw [if_pos he, if_pos he, extract_arguments_eq]
  · rw [if_neg he, if_neg he]

/-! ### Claims about render (C6, C7) -/

/-- C6: when the supplied bindings cover every argument without a default,
render succeeds with the substitution of the content under the effective
map that takes the supplied value for a name when one is supplied and falls
back to the declared default for that name otherwise (a supplied value
always wins over a default). -/
theorem render_supplied_overrides_defaults (p : MarkdownPrompt)
    (supplied : List (String × String)) (f : Fmt)
    (hnd : (supplied.map Prod.fst).Nodup)
    (hcov : ∀ a ∈ p.arguments, a.default = none → a.name ∈ supplied.map Prod.fst) :
    p.render (some supplied) f =
      Except.ok (Fmt.format f p.content (fun k =>
        match lookupB supplied k with
        | some v => some v
        | none => defaultFor p.arguments k)) := by
  unfold MarkdownPrompt.render
  have hmiss : requiredSet p \ providedSet (some supplied) = ∅ := by
    rw [Finset.sdiff_eq_empty_iff_subset]
    intro x hx
    obtain ⟨a, ha, hd, rfl⟩ := mem_requiredSet.mp hx
    exact mem_providedSet.mpr (by simpa using hcov a ha hd)
  rw [if_pos hmiss]
  exact congrArg Except.ok (congrArg (Fmt.format f p.content)
    (funext fun k => lookupB_buildRenderArgs p.arguments supplied k hnd))

/-- The prompt of the render witnesses: `name` is required, `greeting` is
optional with default `Hi`. -/
def greetPrompt : MarkdownPrompt :=
  { name := "greet", title := "Greet", description := "greeting prompt",
    arguments := [{ name := "name", description := "", default := none },
                  { name := "greeting", description := "", default := some "Hi" }],
    content := "$greeting $name" }

theorem render_supplied_overrides_defaults_witness :
    greetPrompt.render (some [("name", "Bob")]) Fmt.dollar = Except.ok "Hi Bob" := by
  rw [render_supplied_overrides_defaults greetPrompt [("name", "Bob")] Fmt.dollar
    (by decide) (by decide)]
  decide

/-- C7: render fails exactly when some argument without a default has no
supplied binding, and the failure carries exactly the set of missing
required names, the difference of the required names and the supplied keys.
The Rust code lists that set in `HashSet` iteration order, which is
unspecified, so the embedding keeps the set. -/
theorem render_missing_arguments_spec (p : MarkdownPrompt)
    (arguments : Option (List (String × String))) (f : Fmt) :
    ((∃ e, p.render arguments f = Except.error e) ↔
      ∃ a ∈ p.arguments, a.default = none ∧
        a.name ∉ (arguments.getD []).map Prod.fst) ∧
    (∀ e, p.render arguments f = Except.error e →
      e = RenderError.missingRequiredArguments
            (requiredSet p \ providedSet arguments)) := by
  unfold MarkdownPrompt.render
  by_cases hmiss : requiredSet p \ providedSet arguments = ∅
  · rw [if_pos hmiss]
    constructor
    · constructor
      · rintro ⟨e, he⟩
        exact Except.noConfusion he
      · rintro ⟨a, ha, hd, hnot⟩
        exfalso
        have hx : a.name ∈ requiredSet p := mem_requiredSet.mpr ⟨a, ha, hd, rfl⟩
        have := Finset.sdiff_eq_empty_iff_subset.mp hmiss hx
        exact hnot (mem_providedSet.mp this)
    · intro e he
      exact Except.noConfusion he
  · rw [if_neg hmiss]
    constructor
    · constructor
      · intro _
        obtain ⟨x, hx⟩ := Finset.nonempty_iff_ne_empty.mpr hmiss
        have hxm := Finset.mem_sdiff.mp hx
        obtain ⟨a, ha, hd, rfl⟩ := mem_requiredSet.mp hxm.1
        exact ⟨a, ha, hd, fun hc => hxm.2 (mem_providedSet.mpr hc)⟩
      · intro _
        exact ⟨_, rfl⟩
    · intro e he
      cases he
      rfl

theorem render_missing_arguments_witness :
    greetPrompt.render none Fmt.dollar =
      Except.error (RenderError.missingRequiredArguments
        (requiredSet greetPrompt \ providedSet none)) := by
  have h := render_missing_arguments_spec greetPrompt none Fmt.dollar
  obtain ⟨e, he⟩ := h.1.mpr
    ⟨{ name := "name", description := "", default := none }, by decide, rfl, by decide⟩
  rw [he, h.2 e he]

/-! ### Claims about the dispatcher (C8, C1, C10) -/

/-- A request object with the given method and id, and optional params. -/
def mkRequest (method : String) (id : Json) (params : Option Json) : Json :=
  Json.obj ([("method", Json.str method), ("id", id)] ++
    (match params with | some p => [("params", p)] | none => []))

/-- A `prompts/get` request with the given id, prompt name, and optional
`arguments` params field. -/
def mkGetRequest (id : Json) (name : String) (arguments : Option Json) : Json :=
  mkRequest "prompts/get" id (some (Json.obj ([("name", Json.str name)] ++
    (match arguments with | some a => [("arguments", a)] | none => []))))

/-- C8: a `prompts/list` request is answered with one public summary per
catalog prompt, in catalog order; each summary copies the prompt name and
description, carries the `arguments` key exactly when the prompt has at
least one argument, and marks each listed argument required exactly when
its default is absent. -/
theorem prompts_list_spec (prompts : List MarkdownPrompt) (f : Fmt) (id : Json) :
    handleRequest (mkRequest "prompts/list" id none) prompts f =
      Except.ok (some (Json.obj [("jsonrpc", Json.str "2.0"), ("id", id),
        ("result", Json.obj [("prompts",
          Json.arr (prompts.map (fun p => promptInfoJson p.to_prompt_info)))])])) ∧
    ∀ p : MarkdownPrompt,
      p.to_prompt_info.name = p.name ∧
      p.to_prompt_info.description = p.description ∧
      p.to_prompt_info.arguments =
        (if p.arguments.isEmpty then none
         else some (p.arguments.map (fun a =>
           { name := a.name, description := a.description,
             required := a.default.isNone }))) := by
  exact ⟨rfl, fun p => ⟨rfl, rfl, rfl⟩⟩

/-- The request of the specification example: `prompts/get` with id 1 for
the absent prompt `missing`. -/
def notFoundRequest : Json :=
  mkGetRequest (Json.num 1) "missing" none

/-- C1 (refuted by the code): when no catalog prompt is named `missing`,
`handle_request` returns an error for the example request instead of an
error reply, and the server loop propagates it with `?`, abandoning every
later request; `main` then exits the process. The claimed `-32602` error
reply and surviving connection do not happen. -/
theorem prompts_get_not_found_aborts (f : Fmt) (prompts : List MarkdownPrompt)
    (rest : List Json) (h : ∀ p ∈ prompts, p.name ≠ "missing") :
    handleRequest notFoundRequest prompts f =
        Except.error "Prompt not found: missing" ∧
    runServer (notFoundRequest :: rest) prompts f =
        Except.error "Prompt not found: missing" := by
  have hfind : prompts.find? (fun p => p.name == "missing") = none :=
    List.find?_eq_none.mpr (fun p hp hbeq => h p hp (by simpa using hbeq))
  have hreq : handleRequest notFoundRequest prompts f =
      Except.error "Prompt not found: missing" := by
    have hstep : handleRequest notFoundRequest prompts f =
        handleGet (Json.num 1) "missing" none prompts f := rfl
    rw [hstep]
    unfold handleGet
    simp only [hfind]
    rfl
  refine ⟨hreq, ?_⟩
  unfold runServer
  rw [hreq]

theorem prompts_get_not_found_aborts_witness :
    runServer [notFoundRequest] [] Fmt.brace =
      Except.error "Prompt not found: missing" :=
  (prompts_get_not_found_aborts Fmt.brace [] []
    (fun p hp => absurd hp (List.not_mem_nil p))).2

/-- C10: a `prompts/get` request whose `arguments` params field does not
decode as a map from strings to strings is handled exactly like the same
request without an `arguments` field: the malformed value is silently
dropped (`.ok()` on the failed deserialization) and no decode error is
reported. -/
theorem malformed_arguments_ignored (v : Json) (hv : decodeStringMap v = none)
    (id : Json) (name : String) (prompts : List MarkdownPrompt) (f : Fmt) :
    handleRequest (mkGetRequest id name (some v)) prompts f =
      handleRequest (mkGetRequest id name none) prompts f := by
  have h₁ : handleRequest (mkGetRequest id name (some v)) prompts f =
      handleGet id name (decodeStringMap v) prompts f := rfl
  have h₂ : handleRequest (mkGetRequest id name none) prompts f =
      handleGet id name none prompts f := rfl
  rw [h₁, h₂, hv]

theorem malformed_arguments_ignored_witness :
    handleRequest (mkGetRequest Json.null "greet" (some (Json.num 5)))
        [greetPrompt] Fmt.dollar =
      handleRequest (mkGetRequest Json.null "greet" none) [greetPrompt] Fmt.dollar :=
  malformed_arguments_ignored (Json.num 5) rfl Json.null "greet" [greetPrompt] Fmt.dollar

end Shinkuro
